import Mathlib

/-!
Verification of the memoization / cache-registry layer of `jax._src/util.py`
(functions `cache`, `memoize`, `register_cache`, `clear_all_caches`,
classes `HashableFunction`, `HashableWrapper`).

The `cache` decorator delegates all lookup, storage, LRU bookkeeping and
statistics to `functools.lru_cache` from the CPython standard library
(`functools.py`, Python 3.11), so the embedding below models both layers:
`make_key` mirrors `functools._make_key`, `lruApply` mirrors one call through
the wrapper produced by `functools._lru_cache_wrapper` (its three cases:
`maxsize == 0`, `maxsize is None`, and the bounded LRU case), and `cacheCall`
mirrors one call through the wrapper produced by `jax._src.util.cache`.

Sequential semantics: the lock-release window of the stdlib miss path (the
`if key in cache` re-check that only matters under concurrent misses) cannot
fire in a single-threaded execution, so it is elided.
-/

/-- One element of a `functools._make_key` flat key tuple.  Python builds the
key as `args + kwd_mark + name, value, name, value, ...`; the marker is a
fresh sentinel object, keyword names are strings, and everything else is an
argument value, so the three constructors cannot collide.  (The stdlib
additionally unwraps a singleton `int`/`str` key; that unwrapping never
identifies two distinct keys, so it is dropped from the model.) -/
inductive KeyElem (A : Type) where
  | kwdMark : KeyElem A
  | str : String → KeyElem A
  | arg : A → KeyElem A
deriving DecidableEq, Repr

/-- The flattened keyword-items part of a key: for each item `(name, value)`,
in the order the call supplied them, the name then the value
(`for item in kwds.items(): key += item`). -/
def kwItems {A : Type} (kwds : List (String × A)) : List (KeyElem A) :=
  kwds.flatMap (fun nv => [KeyElem.str nv.1, KeyElem.arg nv.2])

/-- `functools._make_key` (untyped case): `key = args`; then, when keyword
arguments are present, the sentinel followed by the items in the order the
call supplied them.  The stdlib deliberately does NOT sort the items. -/
def make_key {A : Type} (args : List A) (kwds : List (String × A)) :
    List (KeyElem A) :=
  args.map KeyElem.arg ++
    (match kwds with
     | [] => []
     | _ :: _ => KeyElem.kwdMark :: kwItems kwds)

/-- State of one `functools.lru_cache` wrapper: the entry table in
least-recently-used-first order (the stdlib keeps a circular linked list with
the oldest entry at `root.next`; here the oldest entry is the list head), plus
the `hits` and `misses` counters of `cache_info()`. -/
structure LruState (K V : Type) where
  entries : List (K × V)
  hits : Nat
  misses : Nat
deriving DecidableEq, Repr

/-- The state of a freshly created (or freshly cleared) cache. -/
def LruState.empty {K V : Type} : LruState K V := ⟨[], 0, 0⟩

/-- `cache_clear()` of a `functools.lru_cache` wrapper: empties the table and
resets both counters. -/
def cache_clear {K V : Type} (_s : LruState K V) : LruState K V :=
  { entries := [], hits := 0, misses := 0 }

/-- One call through a `functools._lru_cache_wrapper` (Python 3.11),
sequential semantics.  `maxsize` is the already-normalized capacity
(`none` = unbounded, mirroring `maxsize=None`).  `compute` is the value the
wrapped user function produces for this call (`Except.error` = the call
raises).  Returns the call's result, the new state, and whether the user
function was invoked.

* `maxsize = some 0`: no caching, just a `misses` update, then the call.
* bounded case: on hit, move the entry to most-recently-used and bump `hits`;
  on miss, bump `misses`, run the user function, and store the result —
  evicting the oldest entry when the table is full — unless it raised.
* `maxsize = none`: plain dict without recency tracking or eviction. -/
def lruApply {K V E : Type} [DecidableEq K] (maxsize : Option Nat) (k : K)
    (compute : Except E V) (s : LruState K V) :
    Except E V × LruState K V × Bool :=
  match maxsize with
  | some 0 =>
      (compute, { s with misses := s.misses + 1 }, true)
  | some (m + 1) =>
      match s.entries.find? (fun e => decide (e.1 = k)) with
      | some e =>
          (Except.ok e.2,
            { s with
                entries :=
                  s.entries.filter (fun e2 => !decide (e2.1 = k)) ++ [(k, e.2)],
                hits := s.hits + 1 },
            false)
      | none =>
          match compute with
          | Except.ok v =>
              (Except.ok v,
                { s with
                    entries :=
                      (if m + 1 ≤ s.entries.length then s.entries.tail
                       else s.entries) ++ [(k, v)],
                    misses := s.misses + 1 },
                true)
          | Except.error err =>
              (Except.error err, { s with misses := s.misses + 1 }, true)
  | none =>
      match s.entries.find? (fun e => decide (e.1 = k)) with
      | some e =>
          (Except.ok e.2, { s with hits := s.hits + 1 }, false)
      | none =>
          match compute with
          | Except.ok v =>
              (Except.ok v,
                { s with entries := s.entries ++ [(k, v)],
                         misses := s.misses + 1 },
                true)
          | Except.error err =>
              (Except.error err, { s with misses := s.misses + 1 }, true)

/-- The `maxsize` argument as `functools.lru_cache` receives it: an integer,
`None`, or something else (the callable direct-decoration case does not arise
through `jax._src.util.cache`, which always passes `max_size`). -/
inductive PyMaxsize where
  | int : Int → PyMaxsize
  | pynone : PyMaxsize
  | other : PyMaxsize
deriving DecidableEq, Repr

/-- Capacity normalization performed by `functools.lru_cache` at construction
time: a negative integer maxsize is treated as 0 (comment in `functools.py`:
"Negative maxsize is treated as 0"), `None` disables the bound, and any other
value raises `TypeError`. -/
def lru_cache_init : PyMaxsize → Except String (Option Nat)
  | PyMaxsize.int n => Except.ok (some (if n < 0 then 0 else n.toNat))
  | PyMaxsize.pynone => Except.ok none
  | PyMaxsize.other =>
      Except.error "Expected first argument to be an integer, a callable, or None"

/-- The key a `jax._src.util.cache` wrapper hands to `functools.lru_cache`
for one call: with `trace_context_in_key` the inner `cached` function receives
the ambient trace context as an extra first positional argument
(`cached(config.trace_context(), *args, **kwargs)`), otherwise the arguments
alone. -/
def cacheKeyOf {A : Type} (trace_context_in_key : Bool) (ctx : A)
    (args : List A) (kwargs : List (String × A)) : List (KeyElem A) :=
  if trace_context_in_key then make_key (ctx :: args) kwargs
  else make_key args kwargs

/-- One call through a wrapper produced by `jax._src.util.cache`.
`maxsize` is the normalized capacity, `trace_context_in_key` the decorator
flag, `check_tracer_leaks` the value of `config.check_tracer_leaks.value` at
call time, `ctx` the value of `config.trace_context()` at call time, and `f`
the wrapped function (`Except.error` = it raises).  With
`trace_context_in_key=True` the wrapper first consults the leak-check flag
and, when it is set, calls `f` directly without touching the cache; with
`trace_context_in_key=False` the wrapper IS the bare `functools.lru_cache`
wrapper and never consults the flag. -/
def cacheCall {A V E : Type} [DecidableEq A] (maxsize : Option Nat)
    (trace_context_in_key : Bool)
    (f : List A → List (String × A) → Except E V)
    (check_tracer_leaks : Bool) (ctx : A)
    (s : LruState (List (KeyElem A)) V)
    (args : List A) (kwargs : List (String × A)) :
    Except E V × LruState (List (KeyElem A)) V × Bool :=
  if trace_context_in_key then
    if check_tracer_leaks then (f args kwargs, s, true)
    else lruApply maxsize (make_key (ctx :: args) kwargs) (f args kwargs) s
  else
    lruApply maxsize (make_key args kwargs) (f args kwargs) s

/-- One call through a wrapper produced by `jax._src.util.memoize`, which is
`cache(max_size=None)` — unbounded capacity, and the default
`trace_context_in_key=True` kept. -/
def memoizeCall {A V E : Type} [DecidableEq A]
    (f : List A → List (String × A) → Except E V)
    (check_tracer_leaks : Bool) (ctx : A)
    (s : LruState (List (KeyElem A)) V)
    (args : List A) (kwargs : List (String × A)) :
    Except E V × LruState (List (KeyElem A)) V × Bool :=
  cacheCall none true f check_tracer_leaks ctx s args kwargs

/-- `jax._src.util.clear_all_caches`: iterate the registry's currently-live
handles and call `cache_clear()` on each.  The registry is a
`weakref.WeakKeyDictionary`, so handles that became unreachable before the
sweep are simply no longer among its keys; the model therefore represents the
registry by the list of its still-live handles' states. -/
def clear_all_caches {K V : Type} (caches : List (LruState K V)) :
    List (LruState K V) :=
  caches.map cache_clear

/-- Run a sequence of calls with the given keys through one
`functools.lru_cache` wrapper, computing each value with the pure function
`f`; per call, record the returned value and whether the user function was
invoked. -/
def runCalls {K V : Type} [DecidableEq K] (maxsize : Option Nat) (f : K → V) :
    List K → LruState K V → List (V × Bool) × LruState K V
  | [], s => ([], s)
  | k :: ks, s =>
      let step := lruApply maxsize k (Except.ok (f k) : Except Unit V) s
      let rest := runCalls maxsize f ks step.2.1
      ((step.1.toOption.getD (f k), step.2.2) :: rest.1, rest.2)

/-- Invariant tying a bounded cache state to the set `P` of keys seen so far
(while no eviction has happened): the stored keys are exactly `P`, without
duplicates, and every stored value is the wrapped function's value at its
key. -/
def CacheInv {K V : Type} (f : K → V) (P : Finset K) (s : LruState K V) : Prop :=
  (s.entries.map Prod.fst).Nodup ∧
  (∀ e ∈ s.entries, e.2 = f e.1) ∧
  (∀ a : K, a ∈ s.entries.map Prod.fst ↔ a ∈ P)

/-- The per-call output a within-capacity run must produce: each call returns
the function's value at its key, and invokes the function exactly when the
key has not been seen before. -/
def expectedOut {K V : Type} [DecidableEq K] (f : K → V) :
    Finset K → List K → List (V × Bool)
  | _, [] => []
  | P, k :: ks => (f k, decide (k ∉ P)) :: expectedOut f (insert k P) ks

/-- `jax._src.util.HashableFunction`: the underlying function's code object
(`f.__code__`, here an opaque code identity of type `C`) together with the
explicit closure value. -/
structure HashableFunction (C A : Type) where
  code : C
  closure : A
deriving DecidableEq, Repr

/-- The right-hand side of a `HashableFunction.__eq__` comparison: either
another `HashableFunction` or an object of any other type (tagged). -/
inductive PyObjHF (C A : Type) where
  | hf : HashableFunction C A → PyObjHF C A
  | otherObj : Nat → PyObjHF C A
deriving DecidableEq, Repr

/-- `HashableFunction.__eq__`: `type(other) is HashableFunction and
self.f.__code__ == other.f.__code__ and self.closure == other.closure`. -/
def HashableFunction.pyEq {C A : Type} [DecidableEq C] [DecidableEq A]
    (self : HashableFunction C A) : PyObjHF C A → Bool
  | PyObjHF.hf o => decide (self.code = o.code) && decide (self.closure = o.closure)
  | PyObjHF.otherObj _ => false

/-- `HashableFunction.__hash__`: `hash((self.f.__code__, self.closure))`,
modelled with injected component hash functions `hC`, `hA` and tuple-hash
combiner `hPair`. -/
def HashableFunction.pyHash {C A : Type} (hC : C → Nat) (hA : A → Nat)
    (hPair : Nat → Nat → Nat) (self : HashableFunction C A) : Nat :=
  hPair (hC self.code) (hA self.closure)

/-- A Python object for the `HashableWrapper` model: an identity (`id(x)`)
paired with its value.  Distinct live objects have distinct identities. -/
structure PyObj (A : Type) where
  oid : Nat
  val : A
deriving DecidableEq, Repr

/-- `jax._src.util.HashableWrapper`: the wrapped object and the `hash` slot
computed at construction (`None` when `hash(x)` raised). -/
structure HashableWrapper (A : Type) where
  x : PyObj A
  hash : Option Nat
deriving DecidableEq, Repr

/-- `HashableWrapper.__init__`: store `x` and try `hash(x)`, recording `None`
on failure.  `pyhash` gives each value's hash, or `none` when hashing it
raises. -/
def HashableWrapper.make {A : Type} (pyhash : A → Option Nat) (x : PyObj A) :
    HashableWrapper A :=
  { x := x, hash := pyhash x.val }

/-- `HashableWrapper.__hash__`: the stored hash when hashing succeeded, else
`id(self.x)`. -/
def HashableWrapper.pyHashValue {A : Type} (w : HashableWrapper A) : Nat :=
  match w.hash with
  | some h => h
  | none => w.x.oid

/-- The right-hand side of a `HashableWrapper.__eq__` comparison. -/
inductive PyObjHW (A : Type) where
  | hw : HashableWrapper A → PyObjHW A
  | otherObj : Nat → PyObjHW A

/-- `HashableWrapper.__eq__`: `False` for a non-`HashableWrapper`; otherwise
`self.x == other.x` when the stored hash is not `None`, else
`self.x is other.x` (object identity). -/
def HashableWrapper.pyEq {A : Type} [DecidableEq A]
    (self : HashableWrapper A) : PyObjHW A → Bool
  | PyObjHW.hw o =>
      match self.hash with
      | some _ => decide (self.x.val = o.x.val)
      | none => decide (self.x.oid = o.x.oid)
  | PyObjHW.otherObj _ => false

/-! ### Helper lemmas about single `lru_cache` calls -/

theorem find?_entries_eq_none {K V : Type} [DecidableEq K] {k : K}
    {s : LruState K V} (h : k ∉ s.entries.map Prod.fst) :
    s.entries.find? (fun e => decide (e.1 = k)) = none := by
  apply List.find?_eq_none.mpr
  intro e he
  simp only [decide_eq_true_eq]
  intro hek
  exact h (List.mem_map.mpr ⟨e, he, hek⟩)

theorem lruApply_not_mem_invoked {K V E : Type} [DecidableEq K]
    {M : Option Nat} {k : K} {c : Except E V} {s : LruState K V}
    (h : k ∉ s.entries.map Prod.fst) :
    (lruApply M k c s).2.2 = true := by
  have hfind := find?_entries_eq_none (V := V) h
  match M with
  | some 0 => rfl
  | some (m + 1) => cases c <;> simp [lruApply, hfind]
  | none => cases c <;> simp [lruApply, hfind]

theorem lruApply_mem_not_invoked {K V E : Type} [DecidableEq K]
    {m : Nat} {k : K} {c : Except E V} {s : LruState K V}
    (h : k ∈ s.entries.map Prod.fst) :
    (lruApply (some (m + 1)) k c s).2.2 = false := by
  cases hfind : s.entries.find? (fun e => decide (e.1 = k)) with
  | none =>
      obtain ⟨e, he, hek⟩ := List.mem_map.mp h
      have := List.find?_eq_none.mp hfind e he
      simp [hek] at this
  | some e => simp [lruApply, hfind]

theorem lruApply_keys_subset {K V E : Type} [DecidableEq K]
    (M : Option Nat) (k : K) (c : Except E V) (s : LruState K V) :
    ∀ a ∈ (lruApply M k c s).2.1.entries.map Prod.fst,
      a ∈ s.entries.map Prod.fst ∨ a = k := by
  intro a ha
  match M with
  | some 0 => exact Or.inl ha
  | some (m + 1) =>
      cases hfind : s.entries.find? (fun e => decide (e.1 = k)) with
      | some e =>
          simp only [lruApply, hfind, List.map_append, List.mem_append] at ha
          rcases ha with ha | ha
          · left
            obtain ⟨e2, he2, rfl⟩ := List.mem_map.mp ha
            exact List.mem_map.mpr ⟨e2, (List.mem_filter.mp he2).1, rfl⟩
          · right; simpa using ha
      | none =>
          cases c with
          | ok v =>
              simp only [lruApply, hfind, List.map_append, List.mem_append] at ha
              rcases ha with ha | ha
              · left
                by_cases hlen : m + 1 ≤ s.entries.length
                · simp only [hlen, if_true] at ha
                  obtain ⟨e2, he2, rfl⟩ := List.mem_map.mp ha
                  exact List.mem_map.mpr ⟨e2, (List.tail_sublist _).mem he2, rfl⟩
                · simp only [hlen, if_false] at ha
                  exact ha
              · right; simpa using ha
          | error err =>
              simp only [lruApply, hfind] at ha
              exact Or.inl ha
  | none =>
      cases hfind : s.entries.find? (fun e => decide (e.1 = k)) with
      | some e =>
          simp only [lruApply, hfind] at ha
          exact Or.inl ha
      | none =>
          cases c with
          | ok v =>
              simp only [lruApply, hfind, List.map_append, List.mem_append] at ha
              rcases ha with ha | ha
              · exact Or.inl ha
              · right; simpa using ha
          | error err =>
              simp only [lruApply, hfind] at ha
              exact Or.inl ha

theorem lruApply_miss_error {K V E : Type} [DecidableEq K]
    {M : Option Nat} {k : K} {err : E} {s : LruState K V}
    (h : k ∉ s.entries.map Prod.fst) :
    lruApply M k (Except.error err : Except E V) s =
      (Except.error err, { s with misses := s.misses + 1 }, true) := by
  have hfind := find?_entries_eq_none (V := V) h
  match M with
  | some 0 => rfl
  | some (m + 1) => simp [lruApply, hfind]
  | none => simp [lruApply, hfind]

theorem cacheCall_eq_lruApply {A V E : Type} [DecidableEq A]
    (maxsize : Option Nat) (tck : Bool)
    (f : List A → List (String × A) → Except E V) (ctx : A)
    (s : LruState (List (KeyElem A)) V)
    (args : List A) (kwargs : List (String × A)) :
    cacheCall maxsize tck f false ctx s args kwargs =
      lruApply maxsize (cacheKeyOf tck ctx args kwargs) (f args kwargs) s := by
  cases tck <;> rfl

theorem kwItems_inj {A : Type} :
    ∀ kw1 kw2 : List (String × A), kwItems kw1 = kwItems kw2 → kw1 = kw2 := by
  intro kw1
  induction kw1 with
  | nil =>
      intro kw2 h
      cases kw2 with
      | nil => rfl
      | cons b m => simp [kwItems] at h
  | cons a l ih =>
      intro kw2 h
      cases kw2 with
      | nil => simp [kwItems] at h
      | cons b m =>
          simp only [kwItems, List.flatMap_cons, List.cons_append,
            List.nil_append, List.cons.injEq, KeyElem.str.injEq,
            KeyElem.arg.injEq] at h
          obtain ⟨h1, h2, h3⟩ := h
          have : l = m := ih m h3
          subst this
          rw [Prod.ext h1 h2]

theorem make_key_kwds_inj {A : Type} (args : List A)
    {kw1 kw2 : List (String × A)}
    (h : make_key args kw1 = make_key args kw2) : kw1 = kw2 := by
  have h2 := List.append_cancel_left (h := h)
  cases kw1 with
  | nil =>
      cases kw2 with
      | nil => rfl
      | cons b m => simp at h2
  | cons a l =>
      cases kw2 with
      | nil => simp at h2
      | cons b m =>
          simp only [List.cons.injEq] at h2
          exact kwItems_inj _ _ h2.2

theorem make_key_cons {A : Type} (c : A) (args : List A)
    (kwds : List (String × A)) :
    make_key (c :: args) kwds = KeyElem.arg c :: make_key args kwds := rfl

theorem cacheKeyOf_kwds_inj {A : Type} (tck : Bool) (ctx : A) (args : List A)
    {kw1 kw2 : List (String × A)}
    (h : cacheKeyOf tck ctx args kw1 = cacheKeyOf tck ctx args kw2) :
    kw1 = kw2 := by
  cases tck with
  | false => exact make_key_kwds_inj args h
  | true => exact make_key_kwds_inj (ctx :: args) h

/-! ### Claims C1 and C7 -/

/-- Claim C1 counterexample: a cache built with `trace_context_in_key=False`
does not bypass when `config.check_tracer_leaks` is set — the call goes
through `functools.lru_cache` unconditionally, so it records a miss and
stores an entry, contradicting the claim that contents, hit count and miss
count stay equal to those before the call. -/
theorem cache_bypass_cex :
    (cacheCall (A := Nat) (V := Nat) (E := Unit) (some 4096) false
        (fun _ _ => Except.ok 7) true 0 LruState.empty [1] []).2.1.misses = 1 ∧
    (cacheCall (A := Nat) (V := Nat) (E := Unit) (some 4096) false
        (fun _ _ => Except.ok 7) true 0 LruState.empty [1] []).2.1.entries ≠
      [] := by
  constructor
  · rfl
  · decide

/-- Claim C1 (amended): the leak-check bypass exists only in the
`trace_context_in_key=True` wrapper.  There, whenever
`config.check_tracer_leaks` is set at call time, the wrapped function is
invoked directly and the cache is untouched (same contents, hit count and
miss count).  A `trace_context_in_key=False` wrapper never consults the flag:
its calls behave identically whether or not the flag is set. -/
theorem cache_bypass_only_with_trace_context {A V E : Type} [DecidableEq A]
    (maxsize : Option Nat) (f : List A → List (String × A) → Except E V)
    (ctx : A) (s : LruState (List (KeyElem A)) V)
    (args : List A) (kwargs : List (String × A)) :
    cacheCall maxsize true f true ctx s args kwargs =
      (f args kwargs, s, true) ∧
    ∀ leaks : Bool,
      cacheCall maxsize false f leaks ctx s args kwargs =
        cacheCall maxsize false f false ctx s args kwargs := by
  exact ⟨rfl, fun leaks => rfl⟩

/-- Claim C7 counterexample: constructing a cache with `max_size = -1` does
not fail — `functools.lru_cache` normalizes the negative capacity to 0 and
returns a wrapper. -/
theorem cache_negative_maxsize_cex :
    lru_cache_init (PyMaxsize.int (-1)) = Except.ok (some 0) := rfl

/-- Claim C7 (amended): constructing a cache with a negative `max_size` does
not fail; `functools.lru_cache` treats a negative maxsize as 0, so the
construction succeeds and produces a wrapper that caches nothing — every
call invokes the wrapped function, leaves the entry table unchanged, and only
bumps the miss counter. -/
theorem cache_negative_maxsize (n : Int) (hn : n < 0) :
    lru_cache_init (PyMaxsize.int n) = Except.ok (some 0) ∧
    ∀ (K V E : Type) [DecidableEq K] (k : K) (compute : Except E V)
      (s : LruState K V),
      lruApply (some 0) k compute s =
        (compute, { s with misses := s.misses + 1 }, true) := by
  constructor
  · simp [lru_cache_init, hn]
  · intro K V E _ k compute s
    rfl

/-- Witness for C7's amended theorem at the concrete capacity `-1`. -/
theorem cache_negative_maxsize_witness :
    lru_cache_init (PyMaxsize.int (-1)) = Except.ok (some 0) ∧
    lruApply (some 0) (3 : Nat) (Except.ok 5 : Except Unit Nat)
        (LruState.empty (K := Nat) (V := Nat)) =
      (Except.ok 5, ⟨[], 0, 1⟩, true) := by
  have h := cache_negative_maxsize (-1) (by decide)
  exact ⟨h.1, h.2 Nat Nat Unit 3 (Except.ok 5) LruState.empty⟩

/-! ### Claims C8 and C9 -/

/-- Claim C8: two `HashableFunction`s compare equal exactly when the other is
also a `HashableFunction`, the underlying code objects are equal, and the
closures are equal; equal instances have equal hashes (the hash is derived
from the code/closure pair); and wrappers of syntactically different
functions — which have different code objects — are never equal, whatever
their closures. -/
theorem hashableFunction_semantic_eq {C A : Type} [DecidableEq C]
    [DecidableEq A] (a b : HashableFunction C A) (t : Nat)
    (hC : C → Nat) (hA : A → Nat) (hPair : Nat → Nat → Nat) :
    (a.pyEq (PyObjHF.hf b) = true ↔ a.code = b.code ∧ a.closure = b.closure) ∧
    a.pyEq (PyObjHF.otherObj t) = false ∧
    (a.pyEq (PyObjHF.hf b) = true →
      a.pyHash hC hA hPair = b.pyHash hC hA hPair) ∧
    (a.code ≠ b.code → a.pyEq (PyObjHF.hf b) = false) := by
  refine ⟨?_, rfl, ?_, ?_⟩
  · simp [HashableFunction.pyEq]
  · intro h
    simp only [HashableFunction.pyEq, Bool.and_eq_true, decide_eq_true_eq] at h
    simp [HashableFunction.pyHash, h.1, h.2]
  · intro h
    simp [HashableFunction.pyEq, h]

/-- Witness for C8 at concrete instances: different code objects with equal
closures are unequal, and a self-comparison yields equal hashes. -/
theorem hashableFunction_semantic_eq_witness :
    (HashableFunction.pyEq (⟨0, 5⟩ : HashableFunction Nat Nat)
        (PyObjHF.hf ⟨1, 5⟩) = false) ∧
    (HashableFunction.pyHash id id (fun x y => 2 ^ x * 3 ^ y)
        (⟨0, 5⟩ : HashableFunction Nat Nat) =
      HashableFunction.pyHash id id (fun x y => 2 ^ x * 3 ^ y) ⟨0, 5⟩) := by
  constructor
  · exact (hashableFunction_semantic_eq ⟨0, 5⟩ ⟨1, 5⟩ 0 id id
      (fun x y => 2 ^ x * 3 ^ y)).2.2.2 (by decide)
  · exact (hashableFunction_semantic_eq ⟨0, 5⟩ ⟨0, 5⟩ 0 id id
      (fun x y => 2 ^ x * 3 ^ y)).2.2.1 (by decide)

/-- Claim C9: for `HashableWrapper`, when hashing the wrapped value succeeds
at construction the wrapper's hash is the value's hash and two wrappers
compare equal exactly when the wrapped values compare equal; when hashing
raises, the hash falls back to the object's identity and equality holds
exactly when both wrap the very same object, so wrappers of two distinct
(even structurally identical) unhashable objects are never equal; comparison
with a non-`HashableWrapper` is always false. -/
theorem hashableWrapper_semantics {A : Type} [DecidableEq A]
    (pyhash : A → Option Nat) (x y : PyObj A) (t : Nat) :
    (∀ h, pyhash x.val = some h →
      ((HashableWrapper.make pyhash x).pyEq
          (PyObjHW.hw (HashableWrapper.make pyhash y)) = true ↔
        x.val = y.val) ∧
      (HashableWrapper.make pyhash x).pyHashValue = h) ∧
    (pyhash x.val = none →
      (HashableWrapper.make pyhash x).pyHashValue = x.oid ∧
      ((HashableWrapper.make pyhash x).pyEq
          (PyObjHW.hw (HashableWrapper.make pyhash y)) = true ↔
        x.oid = y.oid) ∧
      (x.oid ≠ y.oid →
        (HashableWrapper.make pyhash x).pyEq
          (PyObjHW.hw (HashableWrapper.make pyhash y)) = false)) ∧
    (HashableWrapper.make pyhash x).pyEq (PyObjHW.otherObj t) = false := by
  refine ⟨?_, ?_, rfl⟩
  · intro h hh
    constructor
    · simp [HashableWrapper.pyEq, HashableWrapper.make, hh]
    · simp [HashableWrapper.pyHashValue, HashableWrapper.make, hh]
  · intro hh
    refine ⟨?_, ?_, ?_⟩
    · simp [HashableWrapper.pyHashValue, HashableWrapper.make, hh]
    · simp [HashableWrapper.pyEq, HashableWrapper.make, hh]
    · intro hne
      simp [HashableWrapper.pyEq, HashableWrapper.make, hh, hne]

/-- Witness for C9: with hash failing on values at least 10, wrappers of two
distinct objects carrying the same unhashable value compare unequal, while
wrappers of two objects carrying the equal hashable value 3 compare equal. -/
theorem hashableWrapper_semantics_witness :
    (HashableWrapper.make (fun n => if n < 10 then some n else none)
        (⟨5, 20⟩ : PyObj Nat)).pyEq
      (PyObjHW.hw (HashableWrapper.make
        (fun n => if n < 10 then some n else none) ⟨6, 20⟩)) = false ∧
    ((HashableWrapper.make (fun n => if n < 10 then some n else none)
        (⟨1, 3⟩ : PyObj Nat)).pyEq
      (PyObjHW.hw (HashableWrapper.make
        (fun n => if n < 10 then some n else none) ⟨2, 3⟩)) = true) := by
  constructor
  · exact ((hashableWrapper_semantics (fun n => if n < 10 then some n else none)
      ⟨5, 20⟩ ⟨6, 20⟩ 0).2.1 (by decide)).2.2 (by decide)
  · exact ((hashableWrapper_semantics (fun n => if n < 10 then some n else none)
      ⟨1, 3⟩ ⟨2, 3⟩ 0).1 3 (by decide)).1.mpr (by decide)

/-! ### Claims C2, C4, C6, C10 -/

/-- Claim C2 counterexample: under the same trace context and positional
arguments, a call with keyword arguments `x=1, y=2` followed by one with
`y=2, x=1` is NOT a hit — `functools._make_key` keeps the keyword items in
the order the call passed them, so the second call re-invokes the wrapped
function (no hit is ever recorded). -/
theorem cache_kwargs_order_cex :
    ((cacheCall (A := Nat) (V := Nat) (E := Unit) (some 4096) true
        (fun _ _ => Except.ok 5) false 0
        (cacheCall (A := Nat) (V := Nat) (E := Unit) (some 4096) true
          (fun _ _ => Except.ok 5) false 0 LruState.empty []
          [("x", 1), ("y", 2)]).2.1
        [] [("y", 2), ("x", 1)]).2.2 = true) ∧
    ((cacheCall (A := Nat) (V := Nat) (E := Unit) (some 4096) true
        (fun _ _ => Except.ok 5) false 0
        (cacheCall (A := Nat) (V := Nat) (E := Unit) (some 4096) true
          (fun _ _ => Except.ok 5) false 0 LruState.empty []
          [("x", 1), ("y", 2)]).2.1
        [] [("y", 2), ("x", 1)]).2.1.hits = 0) := by
  constructor
  · decide
  · decide

/-- Claim C2 (amended): the lookup key is the optional trace-context value,
then the positional arguments, then the keyword arguments in the order the
call passed them (not sorted).  The key determines and is determined by the
keyword-argument list, so two calls whose keyword arguments are passed in
different textual order build different keys, and the second call is a miss
that re-invokes the wrapped function. -/
theorem cache_kwargs_passed_order {A V E : Type} [DecidableEq A]
    (maxsize : Option Nat) (tck : Bool) (ctx : A) (args : List A)
    (kw1 kw2 : List (String × A)) (hne : kw1 ≠ kw2)
    (f : List A → List (String × A) → Except E V) :
    cacheKeyOf tck ctx args kw1 ≠ cacheKeyOf tck ctx args kw2 ∧
    (cacheCall maxsize tck f false ctx
        (cacheCall maxsize tck f false ctx LruState.empty args kw1).2.1
        args kw2).2.2 = true := by
  have hkey : cacheKeyOf tck ctx args kw1 ≠ cacheKeyOf tck ctx args kw2 :=
    fun h => hne (cacheKeyOf_kwds_inj tck ctx args h)
  refine ⟨hkey, ?_⟩
  rw [cacheCall_eq_lruApply, cacheCall_eq_lruApply]
  apply lruApply_not_mem_invoked
  intro hmem
  rcases lruApply_keys_subset maxsize (cacheKeyOf tck ctx args kw1)
      (f args kw1) LruState.empty _ hmem with h | h
  · simp [LruState.empty] at h
  · exact hkey h.symm

/-- Witness for C2's amended theorem at the spec's own example
`f(x=1, y=2)` versus `f(y=2, x=1)`. -/
theorem cache_kwargs_passed_order_witness :
    ([(("x", 1) : String × Nat), ("y", 2)] ≠ [("y", 2), ("x", 1)]) ∧
    (cacheCall (A := Nat) (V := Nat) (E := Unit) (some 4096) true
        (fun _ _ => Except.ok 5) false 0
        (cacheCall (A := Nat) (V := Nat) (E := Unit) (some 4096) true
          (fun _ _ => Except.ok 5) false 0 LruState.empty []
          [("x", 1), ("y", 2)]).2.1
        [] [("y", 2), ("x", 1)]).2.2 = true := by
  refine ⟨by decide, ?_⟩
  exact (cache_kwargs_passed_order (some 4096) true 0 []
    [("x", 1), ("y", 2)] [("y", 2), ("x", 1)] (by decide)
    (fun _ _ => Except.ok 5)).2

/-- Claim C4 counterexample: when the wrapped function raises on a fresh key,
the cache state after the call is NOT equal to the state before it — the
missed-call counter has been incremented (stdlib `lru_cache` bumps `misses`
before invoking the user function). -/
theorem cache_error_cex :
    (cacheCall (A := Nat) (V := Nat) (E := Unit) (some 4096) true
        (fun _ _ => Except.error ()) false 0 LruState.empty [1] []).2.1 ≠
      LruState.empty := by
  decide

/-- Claim C4 (amended): if the wrapped function raises on a non-bypassed call
whose key is not cached, the exception propagates unchanged to the caller and
no entry is stored for that key — the entry table and the hit count are as
before the call, while the miss counter is incremented — and a subsequent
call with the same key invokes the wrapped function again rather than being
served from a stored failure. -/
theorem cache_error_not_stored {A V E : Type} [DecidableEq A]
    (maxsize : Option Nat) (tck : Bool) (ctx : A)
    (f : List A → List (String × A) → Except E V)
    (s : LruState (List (KeyElem A)) V)
    (args : List A) (kwargs : List (String × A)) (err : E)
    (hf : f args kwargs = Except.error err)
    (hk : cacheKeyOf tck ctx args kwargs ∉ s.entries.map Prod.fst) :
    (cacheCall maxsize tck f false ctx s args kwargs).1 = Except.error err ∧
    (cacheCall maxsize tck f false ctx s args kwargs).2.2 = true ∧
    (cacheCall maxsize tck f false ctx s args kwargs).2.1.entries =
      s.entries ∧
    (cacheCall maxsize tck f false ctx s args kwargs).2.1.hits = s.hits ∧
    (cacheCall maxsize tck f false ctx s args kwargs).2.1.misses =
      s.misses + 1 ∧
    (cacheCall maxsize tck f false ctx
        (cacheCall maxsize tck f false ctx s args kwargs).2.1
        args kwargs).2.2 = true := by
  rw [cacheCall_eq_lruApply, hf, lruApply_miss_error hk]
  refine ⟨rfl, rfl, rfl, rfl, rfl, ?_⟩
  rw [cacheCall_eq_lruApply]
  exact lruApply_not_mem_invoked hk

/-- Witness for C4's amended theorem: a concrete raising call on a fresh
capacity-4096 cache. -/
theorem cache_error_not_stored_witness :
    ((fun _ _ => Except.error ()) = (fun (_ : List Nat)
        (_ : List (String × Nat)) => (Except.error () : Except Unit Nat))) ∧
    (cacheCall (A := Nat) (V := Nat) (E := Unit) (some 4096) true
        (fun _ _ => Except.error ()) false 0 LruState.empty [1] []).1 =
      Except.error () ∧
    (cacheCall (A := Nat) (V := Nat) (E := Unit) (some 4096) true
        (fun _ _ => Except.error ()) false 0 LruState.empty [1] []).2.1.entries =
      ([] : List (List (KeyElem Nat) × Nat)) := by
  have h := cache_error_not_stored (A := Nat) (V := Nat) (E := Unit)
    (some 4096) true 0 (fun _ _ => Except.error ()) LruState.empty [1] [] ()
    rfl (by decide)
  exact ⟨rfl, h.1, h.2.2.1⟩

/-- Claim C6: `clear_all_caches` maps `cache_clear` over the registry's
currently-live handles (a `WeakKeyDictionary`, so handles collected before
the sweep are simply absent — the sweep is a total function of the live
handles and cannot fail on them); afterwards every still-live registered
cache is empty with zeroed counters, and any subsequent call — in particular
with a previously cached key — is a miss that invokes the wrapped
function. -/
theorem clear_all_caches_clears {K V E : Type} [DecidableEq K]
    (caches : List (LruState K V)) (c : LruState K V)
    (hc : c ∈ clear_all_caches caches) :
    c.entries = [] ∧ c.hits = 0 ∧ c.misses = 0 ∧
    ∀ (maxsize : Option Nat) (k : K) (compute : Except E V),
      (lruApply maxsize k compute c).2.2 = true := by
  obtain ⟨d, _, rfl⟩ := List.mem_map.mp hc
  refine ⟨rfl, rfl, rfl, ?_⟩
  intro maxsize k compute
  apply lruApply_not_mem_invoked
  simp [cache_clear]

/-- Witness for C6: clearing a one-cache registry whose cache holds key 3;
afterwards the registered cache is empty and a call with the previously
cached key 3 is a miss. -/
theorem clear_all_caches_clears_witness :
    ((⟨[], 0, 0⟩ : LruState Nat Nat) ∈
      clear_all_caches [⟨[(3, 5)], 7, 9⟩]) ∧
    (lruApply (some 4096) 3 (Except.ok 5 : Except Unit Nat)
        (⟨[], 0, 0⟩ : LruState Nat Nat)).2.2 = true := by
  refine ⟨by decide, ?_⟩
  exact (clear_all_caches_clears (E := Unit) [⟨[(3, 5)], 7, 9⟩] ⟨[], 0, 0⟩
    (by decide)).2.2.2 (some 4096) 3 (Except.ok 5)

/-- Claim C10: `memoize` is `cache(max_size=None)` with the default
`trace_context_in_key=True` kept: while the leak-check flag is set a memoized
call is bypassed — the function is invoked directly and nothing is stored —
and the cache key still includes the ambient trace-context value, so
equal-argument calls under unequal trace contexts each invoke the
function. -/
theorem memoize_trace_context_and_bypass {A V E : Type} [DecidableEq A]
    (f : List A → List (String × A) → Except E V) (ctx1 ctx2 : A)
    (args : List A) (kwargs : List (String × A))
    (s : LruState (List (KeyElem A)) V) (hctx : ctx1 ≠ ctx2) :
    memoizeCall f true ctx1 s args kwargs = (f args kwargs, s, true) ∧
    (memoizeCall f false ctx1 LruState.empty args kwargs).2.2 = true ∧
    (memoizeCall f false ctx2
        (memoizeCall f false ctx1 LruState.empty args kwargs).2.1
        args kwargs).2.2 = true := by
  refine ⟨rfl, ?_, ?_⟩
  · simp only [memoizeCall]
    rw [cacheCall_eq_lruApply]
    apply lruApply_not_mem_invoked
    simp [LruState.empty]
  · simp only [memoizeCall]
    rw [cacheCall_eq_lruApply, cacheCall_eq_lruApply]
    apply lruApply_not_mem_invoked
    intro hmem
    rcases lruApply_keys_subset none (cacheKeyOf true ctx1 args kwargs)
        (f args kwargs) LruState.empty _ hmem with h | h
    · simp [LruState.empty] at h
    · apply hctx
      have h2 : make_key (ctx2 :: args) kwargs =
          make_key (ctx1 :: args) kwargs := h
      rw [make_key_cons, make_key_cons] at h2
      exact (KeyElem.arg.inj (List.head_eq_of_cons_eq h2)).symm

/-- Witness for C10 at trace contexts 0 and 1. -/
theorem memoize_trace_context_and_bypass_witness :
    (memoizeCall (A := Nat) (V := Nat) (E := Unit)
        (fun _ _ => Except.ok 7) true 0 LruState.empty [2] [] =
      (Except.ok 7, LruState.empty, true)) ∧
    (memoizeCall (A := Nat) (V := Nat) (E := Unit)
        (fun _ _ => Except.ok 7) false 1
        (memoizeCall (A := Nat) (V := Nat) (E := Unit)
          (fun _ _ => Except.ok 7) false 0 LruState.empty
          [2] []).2.1 [2] []).2.2 = true := by
  have h := memoize_trace_context_and_bypass (A := Nat) (V := Nat) (E := Unit)
    (fun _ _ => Except.ok 7) 0 1 [2] [] LruState.empty (by decide)
  exact ⟨h.1, h.2.2⟩

/-! ### Memoization invariant (for C3) -/

theorem mem_map_fst_filter_ne {K V : Type} [DecidableEq K]
    (l : List (K × V)) (k a : K) :
    (a ∈ (l.filter (fun e2 => !decide (e2.1 = k))).map Prod.fst) ↔
      (a ∈ l.map Prod.fst ∧ a ≠ k) := by
  constructor
  · intro h
    obtain ⟨e2, he2, rfl⟩ := List.mem_map.mp h
    obtain ⟨hel, hp⟩ := List.mem_filter.mp he2
    refine ⟨List.mem_map.mpr ⟨e2, hel, rfl⟩, ?_⟩
    simpa using hp
  · rintro ⟨hmem, hne⟩
    obtain ⟨e2, hel, rfl⟩ := List.mem_map.mp hmem
    exact List.mem_map.mpr
      ⟨e2, List.mem_filter.mpr ⟨hel, by simpa using hne⟩, rfl⟩

theorem CacheInv_length {K V : Type} [DecidableEq K] {f : K → V}
    {P : Finset K} {s : LruState K V} (h : CacheInv f P s) :
    s.entries.length = P.card := by
  obtain ⟨hnd, -, hmem⟩ := h
  have hfs : (s.entries.map Prod.fst).toFinset = P := by
    ext a
    rw [List.mem_toFinset]
    exact hmem a
  have h1 : (s.entries.map Prod.fst).length = s.entries.length :=
    List.length_map _ _
  rw [← h1, ← List.toFinset_card_of_nodup hnd, hfs]

theorem lruStep_hit {K V : Type} [DecidableEq K] {f : K → V} {P : Finset K}
    {s : LruState K V} {m : Nat} {k : K}
    (hinv : CacheInv f P s) (hk : k ∈ P) :
    (lruApply (some (m + 1)) k (Except.ok (f k) : Except Unit V) s).1 =
      Except.ok (f k) ∧
    (lruApply (some (m + 1)) k (Except.ok (f k) : Except Unit V) s).2.2 =
      false ∧
    CacheInv f P
      (lruApply (some (m + 1)) k (Except.ok (f k) : Except Unit V) s).2.1 := by
  obtain ⟨hnd, hval, hmem⟩ := hinv
  have hkmem : k ∈ s.entries.map Prod.fst := (hmem k).mpr hk
  cases hfind : s.entries.find? (fun e => decide (e.1 = k)) with
  | none =>
      obtain ⟨e, he, hek⟩ := List.mem_map.mp hkmem
      have := List.find?_eq_none.mp hfind e he
      simp [hek] at this
  | some e =>
      have heq : e.1 = k := by simpa using List.find?_some hfind
      have hemem : e ∈ s.entries := List.mem_of_find?_eq_some hfind
      have hev : e.2 = f k := by rw [hval e hemem, heq]
      have hnd_f :
          ((s.entries.filter (fun e2 => !decide (e2.1 = k))).map
            Prod.fst).Nodup :=
        ((List.filter_sublist s.entries).map Prod.fst).nodup hnd
      refine ⟨?_, ?_, ?_, ?_, ?_⟩
      · simp [lruApply, hfind, hev]
      · simp [lruApply, hfind]
      · simp only [lruApply, hfind, List.map_append]
        refine List.nodup_append.mpr ⟨hnd_f, by simp, ?_⟩
        intro a haf hak
        have := ((mem_map_fst_filter_ne s.entries k a).mp haf).2
        simp at hak
        exact this hak
      · intro e2 he2
        simp only [lruApply, hfind] at he2
        rcases List.mem_append.mp he2 with h2 | h2
        · exact hval e2 (List.mem_of_mem_filter h2)
        · have : e2 = (k, e.2) := by simpa using h2
          rw [this, hev]
      · intro a
        simp only [lruApply, hfind, List.map_append, List.mem_append,
          mem_map_fst_filter_ne]
        constructor
        · rintro (⟨ha, -⟩ | ha)
          · exact (hmem a).mp ha
          · have : a = k := by simpa using ha
            rw [this]; exact hk
        · intro haP
          by_cases hak : a = k
          · right; simp [hak]
          · left; exact ⟨(hmem a).mpr haP, hak⟩

theorem lruStep_miss {K V : Type} [DecidableEq K] {f : K → V} {P : Finset K}
    {s : LruState K V} {m : Nat} {k : K}
    (hinv : CacheInv f P s) (hk : k ∉ P) (hcard : P.card < m + 1) :
    (lruApply (some (m + 1)) k (Except.ok (f k) : Except Unit V) s).1 =
      Except.ok (f k) ∧
    (lruApply (some (m + 1)) k (Except.ok (f k) : Except Unit V) s).2.2 =
      true ∧
    CacheInv f (insert k P)
      (lruApply (some (m + 1)) k (Except.ok (f k) : Except Unit V) s).2.1 := by
  have hlen : s.entries.length = P.card := CacheInv_length hinv
  obtain ⟨hnd, hval, hmem⟩ := hinv
  have hkmem : k ∉ s.entries.map Prod.fst := fun h => hk ((hmem k).mp h)
  have hfind := find?_entries_eq_none (V := V) hkmem
  have hnotfull : ¬(m + 1 ≤ s.entries.length) := by omega
  refine ⟨?_, ?_, ?_, ?_, ?_⟩
  · simp [lruApply, hfind]
  · simp [lruApply, hfind]
  · simp only [lruApply, hfind, hnotfull, if_false, List.map_append]
    refine List.nodup_append.mpr ⟨hnd, by simp, ?_⟩
    intro a haf hak
    have : a = k := by simpa using hak
    rw [this] at haf
    exact hkmem haf
  · intro e2 he2
    simp only [lruApply, hfind, hnotfull, if_false] at he2
    rcases List.mem_append.mp he2 with h2 | h2
    · exact hval e2 h2
    · have : e2 = (k, f k) := by simpa using h2
      rw [this]
  · intro a
    simp only [lruApply, hfind, hnotfull, if_false, List.map_append,
      List.mem_append, Finset.mem_insert]
    constructor
    · rintro (ha | ha)
      · exact Or.inr ((hmem a).mp ha)
      · exact Or.inl (by simpa using ha)
    · rintro (rfl | ha)
      · right; simp
      · left; exact (hmem a).mpr ha

theorem runCalls_within_capacity {K V : Type} [DecidableEq K] {m : Nat}
    (f : K → V) :
    ∀ (ks : List K) (P : Finset K) (s : LruState K V),
      CacheInv f P s → (P ∪ ks.toFinset).card ≤ m + 1 →
      (runCalls (some (m + 1)) f ks s).1 = expectedOut f P ks ∧
      CacheInv f (P ∪ ks.toFinset) (runCalls (some (m + 1)) f ks s).2 := by
  intro ks
  induction ks with
  | nil =>
      intro P s hinv _
      refine ⟨rfl, ?_⟩
      rw [show P ∪ ([] : List K).toFinset = P by simp]
      exact hinv
  | cons k ks ih =>
      intro P s hinv hcard
      have hunion : P ∪ (k :: ks).toFinset = insert k P ∪ ks.toFinset := by
        rw [List.toFinset_cons, Finset.union_insert, Finset.insert_union]
      by_cases hk : k ∈ P
      · obtain ⟨h1, h2, h3⟩ := lruStep_hit (m := m) hinv hk
        have hPins : insert k P = P := Finset.insert_eq_self.mpr hk
        have hcard2 : (P ∪ ks.toFinset).card ≤ m + 1 := by
          rw [← hPins, ← hunion]
          exact hcard
        obtain ⟨ih1, ih2⟩ := ih P _ h3 hcard2
        have hd : (decide (k ∉ P)) = false := by simp [hk]
        constructor
        · simp only [runCalls, expectedOut, h1, h2, hd, hPins, ih1,
            Except.toOption, Option.getD_some]
        · simp only [runCalls]
          rw [hunion, hPins]
          exact ih2
      · have hkP2 : k ∈ P ∪ (k :: ks).toFinset := by
          simp [List.toFinset_cons]
        have hlt : P.card < m + 1 := by
          have hsub : insert k P ⊆ P ∪ (k :: ks).toFinset := by
            intro a ha
            rcases Finset.mem_insert.mp ha with rfl | ha
            · exact hkP2
            · exact Finset.mem_union_left _ ha
          have hle := Finset.card_le_card hsub
          rw [Finset.card_insert_of_not_mem hk] at hle
          omega
        obtain ⟨h1, h2, h3⟩ := lruStep_miss hinv hk hlt
        have hcard2 : (insert k P ∪ ks.toFinset).card ≤ m + 1 := by
          rw [← hunion]
          exact hcard
        obtain ⟨ih1, ih2⟩ := ih (insert k P) _ h3 hcard2
        have hd : (decide (k ∉ P)) = true := by simp [hk]
        constructor
        · simp only [runCalls, expectedOut, h1, h2, hd, ih1,
            Except.toOption, Option.getD_some]
        · simp only [runCalls]
          rw [hunion]
          exact ih2

theorem expectedOut_getElem {K V : Type} [DecidableEq K] (f : K → V) :
    ∀ (ks : List K) (P : Finset K) (j : Nat) (hj : j < ks.length),
      (expectedOut f P ks)[j]? =
        some (f (ks.get ⟨j, hj⟩),
          decide (ks.get ⟨j, hj⟩ ∉ P ∪ (ks.take j).toFinset)) := by
  intro ks
  induction ks with
  | nil => intro P j hj; simp at hj
  | cons k ks ih =>
      intro P j hj
      cases j with
      | zero => simp [expectedOut]
      | succ j =>
          have hj2 : j < ks.length := by simpa using hj
          simp only [expectedOut, List.getElem?_cons_succ]
          rw [ih (insert k P) j hj2]
          rw [List.take_succ_cons, List.toFinset_cons, Finset.union_insert,
            Finset.insert_union]
          rfl

theorem get_mem_take {K : Type} (ks : List K) (i j : Nat)
    (hi : i < ks.length) (hij : i < j) : ks.get ⟨i, hi⟩ ∈ ks.take j := by
  have h1 : i < (ks.take j).length := by
    rw [List.length_take]
    exact lt_min hij hi
  have h2 : (ks.take j).get ⟨i, h1⟩ = ks.get ⟨i, hi⟩ := by
    simp [List.get_eq_getElem, List.getElem_take]
  rw [← h2]
  exact List.get_mem _ _ _

/-- Claim C3: on a capacity-N cache, for any sequence of calls whose keys are
drawn from at most N distinct keys, every call returns the wrapped function's
value at its key; a call whose key equals an earlier call's key returns that
stored value without invoking the wrapped function; hence the wrapped
function is invoked at most once per distinct key (no two equal-key calls
both invoke it). -/
theorem cache_memoization_correct {K V : Type} [DecidableEq K]
    (N : Nat) (hN : 0 < N) (f : K → V) (ks : List K)
    (hcap : ks.toFinset.card ≤ N) :
    (∀ (j : Nat) (hj : j < ks.length),
      ∃ r, (runCalls (some N) f ks
          (LruState.empty : LruState K V)).1[j]? = some r ∧
        r.1 = f (ks.get ⟨j, hj⟩)) ∧
    (∀ (i j : Nat) (hi : i < ks.length) (hj : j < ks.length), i < j →
      ks.get ⟨i, hi⟩ = ks.get ⟨j, hj⟩ →
      (runCalls (some N) f ks (LruState.empty : LruState K V)).1[j]? =
        some (f (ks.get ⟨j, hj⟩), false)) ∧
    (∀ (i j : Nat) (hi : i < ks.length) (hj : j < ks.length)
      (ri rj : V × Bool), i < j → ks.get ⟨i, hi⟩ = ks.get ⟨j, hj⟩ →
      (runCalls (some N) f ks (LruState.empty : LruState K V)).1[i]? =
        some ri →
      (runCalls (some N) f ks (LruState.empty : LruState K V)).1[j]? =
        some rj →
      ¬(ri.2 = true ∧ rj.2 = true)) := by
  obtain ⟨m, rfl⟩ : ∃ m, N = m + 1 := ⟨N - 1, by omega⟩
  have hinv0 : CacheInv f ∅ (LruState.empty : LruState K V) := by
    refine ⟨List.nodup_nil, ?_, ?_⟩
    · intro e he
      simp [LruState.empty] at he
    · intro a
      simp [LruState.empty]
  have hrun := runCalls_within_capacity f ks ∅ LruState.empty hinv0
    (by simpa using hcap)
  have hout : (runCalls (some (m + 1)) f ks
      (LruState.empty : LruState K V)).1 = expectedOut f ∅ ks := hrun.1
  have hdup : ∀ (i j : Nat) (hi : i < ks.length) (hj : j < ks.length),
      i < j → ks.get ⟨i, hi⟩ = ks.get ⟨j, hj⟩ →
      (runCalls (some (m + 1)) f ks (LruState.empty : LruState K V)).1[j]? =
        some (f (ks.get ⟨j, hj⟩), false) := by
    intro i j hi hj hij heq
    rw [hout, expectedOut_getElem f ks ∅ j hj]
    have hmemtake : ks.get ⟨j, hj⟩ ∈ (ks.take j).toFinset := by
      rw [List.mem_toFinset, ← heq]
      exact get_mem_take ks i j hi hij
    have : (decide (ks.get ⟨j, hj⟩ ∉ (∅ : Finset K) ∪ (ks.take j).toFinset)) =
        false := by
      rw [decide_eq_false_iff_not, not_not, Finset.empty_union]
      exact hmemtake
    rw [this]
  refine ⟨?_, hdup, ?_⟩
  · intro j hj
    rw [hout, expectedOut_getElem f ks ∅ j hj]
    exact ⟨_, rfl, rfl⟩
  · intro i j hi hj ri rj hij heq hri hrj
    rintro ⟨-, hrj2⟩
    have := hdup i j hi hj hij heq
    rw [hrj] at this
    have : rj = (f (ks.get ⟨j, hj⟩), false) := by
      injection this
    rw [this] at hrj2
    simp at hrj2

/-- Witness for C3: capacity 2, key sequence 0,1,0,1 (two distinct keys); the
third call (index 2, key 0 already seen at index 0) returns the cached value
0 without invoking the function. -/
theorem cache_memoization_correct_witness :
    (0 < 2) ∧ (([0, 1, 0, 1] : List Nat).toFinset.card ≤ 2) ∧
    (runCalls (some 2) (fun k => 10 * k) ([0, 1, 0, 1] : List Nat)
        (LruState.empty : LruState Nat Nat)).1[2]? = some (0, false) := by
  refine ⟨by decide, by decide, ?_⟩
  have h := (cache_memoization_correct 2 (by decide) (fun k => 10 * k)
    [0, 1, 0, 1] (by decide)).2.1 0 2 (by decide) (by decide) (by decide)
    (by decide)
  simpa using h

/-! ### LRU eviction (for C5) -/

theorem runCalls_append_state {K V : Type} [DecidableEq K]
    (M : Option Nat) (f : K → V) :
    ∀ (xs ys : List K) (s : LruState K V),
      (runCalls M f (xs ++ ys) s).2 =
        (runCalls M f ys (runCalls M f xs s).2).2 := by
  intro xs
  induction xs with
  | nil => intro ys s; rfl
  | cons x xs ih =>
      intro ys s
      simp only [List.cons_append, runCalls]
      exact ih ys _

theorem runCalls_fresh {K V : Type} [DecidableEq K] {m : Nat} (f : K → V) :
    ∀ (ks pres : List K) (s : LruState K V),
      s.entries = pres.map (fun k => (k, f k)) →
      (pres ++ ks).Nodup → (pres ++ ks).length ≤ m + 1 →
      (runCalls (some (m + 1)) f ks s).2.entries =
        (pres ++ ks).map (fun k => (k, f k)) := by
  intro ks
  induction ks with
  | nil =>
      intro pres s hs _ _
      simpa using hs
  | cons k ks ih =>
      intro pres s hs hnd hlen
      have hknp : k ∉ pres := by
        have hd := (List.nodup_append.mp hnd).2.2
        intro hk
        exact hd hk (List.mem_cons_self k ks)
      have hkmem : k ∉ s.entries.map Prod.fst := by
        rw [hs]
        simpa using hknp
      have hfind := find?_entries_eq_none (V := V) hkmem
      have hlp : s.entries.length = pres.length := by rw [hs]; simp
      have hnotfull : ¬(m + 1 ≤ s.entries.length) := by
        rw [hlp]
        have hlen2 : pres.length + (k :: ks).length ≤ m + 1 := by
          simpa [List.length_append] using hlen
        simp only [List.length_cons] at hlen2
        omega
      have hstep :
          (lruApply (some (m + 1)) k (Except.ok (f k) : Except Unit V)
            s).2.1.entries = (pres ++ [k]).map (fun k => (k, f k)) := by
        simp only [lruApply, hfind, hnotfull, if_false]
        rw [hs]
        simp [List.map_append]
      have hres := ih (pres ++ [k]) _ hstep
        (by rw [List.append_assoc, List.singleton_append]; exact hnd)
        (by rw [List.append_assoc, List.singleton_append]; exact hlen)
      simp only [runCalls]
      rw [hres, List.append_assoc, List.singleton_append]

theorem map_fst_map_pair {K V : Type} (f : K → V) (l : List K) :
    (l.map (fun k => (k, f k))).map Prod.fst = l := by
  induction l with
  | nil => rfl
  | cons a t ih => simp [ih]

/-- Claim C5: on a fresh cache of capacity N, after N+1 calls with pairwise
distinct keys exactly the least-recently-used entry (the first key, never
touched again) has been evicted: the table holds exactly the last N keys in
order, a subsequent call with the first (evicted) key is a miss that invokes
the wrapped function, and a call with any of the other N keys is a hit that
does not.  The capacity-2 scenario with keys A, B, C is the witness. -/
theorem cache_lru_eviction {K V : Type} [DecidableEq K]
    (N : Nat) (hN : 0 < N) (f : K → V) (ks : List K)
    (hlen : ks.length = N + 1) (hnd : ks.Nodup) :
    ((runCalls (some N) f ks (LruState.empty : LruState K V)).2.entries =
      ks.tail.map (fun k => (k, f k))) ∧
    (∀ k0, ks.head? = some k0 →
      (lruApply (some N) k0 (Except.ok (f k0) : Except Unit V)
        (runCalls (some N) f ks LruState.empty).2).2.2 = true) ∧
    (∀ k ∈ ks.tail,
      (lruApply (some N) k (Except.ok (f k) : Except Unit V)
        (runCalls (some N) f ks LruState.empty).2).2.2 = false) := by
  obtain ⟨m, rfl⟩ : ∃ m, N = m + 1 := ⟨N - 1, by omega⟩
  rcases ks.eq_nil_or_concat' with rfl | ⟨init, last, rfl⟩
  · simp at hlen
  have hinitlen : init.length = m + 1 := by
    simp only [List.length_append, List.length_singleton] at hlen
    omega
  have hinitnd : init.Nodup := (List.nodup_append.mp hnd).1
  have hstate1 := runCalls_fresh f init [] LruState.empty rfl
    (by simpa using hinitnd) (by simpa using le_of_eq hinitlen)
  simp only [List.nil_append] at hstate1
  have hsplit := runCalls_append_state (some (m + 1)) f init [last]
    LruState.empty
  have hlast_nin : last ∉ init := by
    have hd := (List.nodup_append.mp hnd).2.2
    intro h
    exact hd h (by simp)
  have hlfind : (runCalls (some (m + 1)) f init
      (LruState.empty : LruState K V)).2.entries.find?
        (fun e => decide (e.1 = last)) = none := by
    apply find?_entries_eq_none
    rw [hstate1]
    simpa using hlast_nin
  have hfull : m + 1 ≤ (runCalls (some (m + 1)) f init
      (LruState.empty : LruState K V)).2.entries.length := by
    rw [hstate1]
    simp [hinitlen]
  have hfin : (runCalls (some (m + 1)) f (init ++ [last])
      (LruState.empty : LruState K V)).2.entries =
      (init.tail ++ [last]).map (fun k => (k, f k)) := by
    rw [hsplit]
    simp only [runCalls, lruApply, hlfind]
    rw [if_pos hfull, hstate1]
    simp [List.map_append, ← List.map_tail]
  have hkstail : (init ++ [last]).tail = init.tail ++ [last] := by
    cases init with
    | nil => simp at hinitlen
    | cons a t => rfl
  refine ⟨by rw [hfin, hkstail], ?_, ?_⟩
  · intro k0 hk0
    apply lruApply_not_mem_invoked
    rw [hfin]
    cases init with
    | nil => simp at hinitlen
    | cons a t =>
        have hk0a : k0 = a := by
          have h2 : a = k0 := by simpa using hk0
          exact h2.symm
        rw [hk0a, map_fst_map_pair]
        have hnd2 : (a :: (t ++ [last])).Nodup := by simpa using hnd
        have hnin : a ∉ t ++ [last] := (List.nodup_cons.mp hnd2).1
        simpa using hnin
  · intro k hk
    apply lruApply_mem_not_invoked (m := m)
    rw [hfin, map_fst_map_pair]
    rw [hkstail] at hk
    exact hk

/-- Witness for C5: the spec's concrete scenario — capacity 2, distinct keys
0 (A), 1 (B), 2 (C) in order; afterwards querying A is a miss while querying
B and C are hits. -/
theorem cache_lru_eviction_witness :
    (0 < 2) ∧ (([0, 1, 2] : List Nat).length = 2 + 1) ∧
    (([0, 1, 2] : List Nat).Nodup) ∧
    (lruApply (some 2) 0 (Except.ok 0 : Except Unit Nat)
      (runCalls (some 2) (fun k => 10 * k) ([0, 1, 2] : List Nat)
        LruState.empty).2).2.2 = true ∧
    (lruApply (some 2) 1 (Except.ok 10 : Except Unit Nat)
      (runCalls (some 2) (fun k => 10 * k) ([0, 1, 2] : List Nat)
        LruState.empty).2).2.2 = false ∧
    (lruApply (some 2) 2 (Except.ok 20 : Except Unit Nat)
      (runCalls (some 2) (fun k => 10 * k) ([0, 1, 2] : List Nat)
        LruState.empty).2).2.2 = false := by
  have h := cache_lru_eviction 2 (by decide) (fun k => 10 * k) [0, 1, 2]
    (by decide) (by decide)
  exact ⟨by decide, by decide, by decide, h.2.1 0 rfl,
    h.2.2 1 (by decide), h.2.2 2 (by decide)⟩
